import Mathlib

/-!
Verification of the deepcatch-agent conversation front-end and of its
orchestration core, as described by the repository specification.

The development shallowly embeds:
* the front-end agent-insights store (`AgentInsightsProvider.recordToolResults`
  and its comparator `sortByReceivedAt` from
  `front-end/src/context/agent-insights-context.tsx`),
* the mock chat API route (`app/api/mock/chat/route.ts`),
* the chatbot message pipeline (`components/dashboard/chatbot.tsx`:
  `normalizeToolResults` and `handleSendMessage`),
* and, where the orchestration engine itself (`server/src/agent`) is not part
  of the sources, a model of the pipeline constructed from the specification
  (registry ordering, missing-field recomputation, call idempotency and the
  `callSuggested` rule).

JavaScript machine details are embedded as follows: `Date.parse` is an
abstract `String → Option Int` (`none` models `NaN`), freshly generated
identifiers (`crypto.randomUUID()` etc.) are an abstract supply
`Nat → String`, the module-load timestamps of the mock route are abstract
string parameters, and the stable `Array.prototype.sort` is `List.mergeSort`
with `le a b` defined as "comparator result ≤ 0".
-/

/-! ## Front-end data model (`front-end/src/types/agent.ts`) -/

/-- `ToolResult` from `types/agent.ts`: the normalized tool-insight entry kept
by the front-end store.  Optional fields are `Option`; `metadata` is an open
map embedded as an association list (`none` models `null`/absence). -/
structure ToolResult where
  id : String
  toolName : Option String := none
  title : Option String := none
  content : String
  metadata : Option (List (String × String)) := none
  receivedAt : String
deriving Repr, DecidableEq

/-- `ToolResultPayload` from `types/agent.ts`: the raw wire shape, with every
field optional. -/
structure ToolResultPayload where
  id : Option String := none
  toolName : Option String := none
  title : Option String := none
  content : Option String := none
  text : Option String := none
  output : Option String := none
  metadata : Option (List (String × String)) := none
  createdAt : Option String := none
deriving Repr, DecidableEq

/-- `AgentChatResponse` from `types/agent.ts`: `message` is required while
`toolResults` and `callSuggested` are optional (`toolResults?`,
`callSuggested?`). -/
structure AgentChatResponse where
  message : String
  toolResults : Option (List ToolResultPayload) := none
  callSuggested : Option Bool := none
deriving Repr, DecidableEq

/-! ## Agent-insights store (`context/agent-insights-context.tsx`) -/

/-- `sortByReceivedAt` from `agent-insights-context.tsx`, as the JavaScript
comparator: `Date.parse` is the abstract `parse` and a `none` result models
`NaN`.  `NaN/NaN ↦ 0`, `NaN/t ↦ -1`, `t/NaN ↦ 1`, `t/t' ↦ t - t'`. -/
def sortByReceivedAt (parse : String → Option Int) (a b : ToolResult) : Int :=
  match parse a.receivedAt, parse b.receivedAt with
  | none, none => 0
  | none, some _ => -1
  | some _, none => 1
  | some x, some y => x - y

/-- `xs.slice().sort(sortByReceivedAt)`: the stable JavaScript sort is
`mergeSort` ordered by "comparator ≤ 0". -/
def sortedByReceivedAt (parse : String → Option Int) (l : List ToolResult) :
    List ToolResult :=
  l.mergeSort (fun a b => sortByReceivedAt parse a b ≤ 0)

/-- The body of the `for (const result of results)` loop in
`recordToolResults`: `findIndex` on the id, replace on a hit
(`merged[existingIndex] = result`), append otherwise (`merged.push(result)`).
Embedded as replace-first-match-or-append recursion. -/
def upsertToolResult : List ToolResult → ToolResult → List ToolResult
  | [], r => [r]
  | x :: xs, r => if x.id == r.id then r :: xs else x :: upsertToolResult xs r

/-- `recordToolResults` from `agent-insights-context.tsx`.  `none` models a
`null`/`undefined` argument; an empty list and `null` both leave the stored
list unchanged; an update on an empty store sorts the incoming batch as-is;
otherwise each batch entry is upserted and the merged list re-sorted. -/
def recordToolResults (parse : String → Option Int) (prev : List ToolResult) :
    Option (List ToolResult) → List ToolResult
  | none => prev
  | some results =>
    if results.length = 0 then prev
    else if prev.length = 0 then sortedByReceivedAt parse results
    else sortedByReceivedAt parse (results.foldl upsertToolResult prev)

/-- The store contents after a sequence of `recordToolResults` calls starting
from the initial empty `useState<ToolResult[]>([])`. -/
def applyBatches (parse : String → Option Int)
    (batches : List (Option (List ToolResult))) : List ToolResult :=
  batches.foldl (recordToolResults parse) []

/-- Statement helper: the stored log mentions each identifier at most once. -/
def nodupIds (l : List ToolResult) : Prop :=
  (l.map ToolResult.id).Nodup

/-! ### Lemmas about the upsert loop -/

theorem mem_of_mem_upsertToolResult {m : List ToolResult} {r y : ToolResult}
    (h : y ∈ upsertToolResult m r) : y ∈ m ∨ y = r := by
  induction m with
  | nil => simpa [upsertToolResult] using h
  | cons x xs ih =>
    by_cases hx : x.id == r.id
    · simp only [upsertToolResult, hx, if_pos] at h
      rcases List.mem_cons.mp h with h | h
      · exact Or.inr h
      · exact Or.inl (List.mem_cons_of_mem _ h)
    · simp only [upsertToolResult, hx, if_neg] at h
      rcases List.mem_cons.mp h with h | h
      · exact Or.inl (h ▸ List.mem_cons_self _ _)
      · rcases ih h with h | h
        · exact Or.inl (List.mem_cons_of_mem _ h)
        · exact Or.inr h

theorem self_mem_upsertToolResult (m : List ToolResult) (r : ToolResult) :
    r ∈ upsertToolResult m r := by
  induction m with
  | nil => simp [upsertToolResult]
  | cons x xs ih =>
    by_cases hx : x.id == r.id
    · simp [upsertToolResult, hx]
    · simpa [upsertToolResult, hx] using Or.inr ih

theorem mem_upsertToolResult_of_ne {m : List ToolResult} {r y : ToolResult}
    (hy : y ∈ m) (hne : y.id ≠ r.id) : y ∈ upsertToolResult m r := by
  induction m with
  | nil => cases hy
  | cons x xs ih =>
    by_cases hx : x.id == r.id
    · simp only [upsertToolResult, hx, if_pos]
      rcases List.mem_cons.mp hy with h | h
      · exact absurd (h ▸ (beq_iff_eq.mp hx)) hne
      · exact List.mem_cons_of_mem _ h
    · simp only [upsertToolResult, hx, if_neg]
      rcases List.mem_cons.mp hy with h | h
      · exact h ▸ List.mem_cons_self _ _
      · exact List.mem_cons_of_mem _ (ih h)

theorem id_mem_of_mem_upsertToolResult {m : List ToolResult} {r y : ToolResult}
    (h : y ∈ upsertToolResult m r) :
    y.id ∈ m.map ToolResult.id ∨ y.id = r.id := by
  rcases mem_of_mem_upsertToolResult h with h | h
  · exact Or.inl (List.mem_map_of_mem _ h)
  · exact Or.inr (by rw [h])

theorem nodupIds_upsertToolResult {m : List ToolResult} (r : ToolResult)
    (h : nodupIds m) : nodupIds (upsertToolResult m r) := by
  induction m with
  | nil => simp [upsertToolResult, nodupIds]
  | cons x xs ih =>
    rw [nodupIds, List.map_cons, List.nodup_cons] at h
    by_cases hx : x.id == r.id
    · have hx' : x.id = r.id := beq_iff_eq.mp hx
      rw [upsertToolResult, if_pos hx, nodupIds, List.map_cons, List.nodup_cons]
      exact ⟨hx' ▸ h.1, h.2⟩
    · have hx' : ¬ x.id = r.id := by simpa using hx
      rw [upsertToolResult, if_neg hx, nodupIds, List.map_cons, List.nodup_cons]
      refine ⟨?_, ih h.2⟩
      intro hmem
      rcases List.mem_map.mp hmem with ⟨y, hy, hyid⟩
      rcases id_mem_of_mem_upsertToolResult hy with hin | hid
      · exact h.1 (hyid ▸ hin)
      · exact hx' (by rw [← hyid, hid])

/-! ### Lemmas about the whole batch loop (`foldl upsertToolResult`) -/

theorem nodupIds_foldl_upsert (rs : List ToolResult) :
    ∀ m : List ToolResult, nodupIds m → nodupIds (rs.foldl upsertToolResult m) := by
  induction rs with
  | nil => intro m hm; simpa using hm
  | cons r rs ih =>
    intro m hm
    exact ih _ (nodupIds_upsertToolResult r hm)

theorem mem_foldl_upsert_of_mem {x : ToolResult} (rs : List ToolResult) :
    ∀ m : List ToolResult, x ∈ m → x.id ∉ rs.map ToolResult.id →
      x ∈ rs.foldl upsertToolResult m := by
  induction rs with
  | nil => intro m hx _; simpa using hx
  | cons r rs ih =>
    intro m hx hid
    rw [List.map_cons, List.mem_cons, not_or] at hid
    exact ih _ (mem_upsertToolResult_of_ne hx hid.1) hid.2

theorem mem_foldl_upsert_of_mem_batch {r : ToolResult} {rs : List ToolResult}
    (hr : r ∈ rs) (hrs : nodupIds rs) :
    ∀ m : List ToolResult, r ∈ rs.foldl upsertToolResult m := by
  induction rs with
  | nil => cases hr
  | cons a tl ih =>
    intro m
    rw [nodupIds, List.map_cons, List.nodup_cons] at hrs
    rcases List.mem_cons.mp hr with h | h
    · subst h
      exact mem_foldl_upsert_of_mem tl _ (self_mem_upsertToolResult m r) hrs.1
    · exact ih h hrs.2 _

theorem mem_or_of_mem_foldl_upsert {x : ToolResult} (rs : List ToolResult) :
    ∀ m : List ToolResult, x ∈ rs.foldl upsertToolResult m → x ∈ m ∨ x ∈ rs := by
  induction rs with
  | nil => intro m h; exact Or.inl (by simpa using h)
  | cons r rs ih =>
    intro m h
    rcases ih _ h with h' | h'
    · rcases mem_of_mem_upsertToolResult h' with h'' | h''
      · exact Or.inl h''
      · exact Or.inr (h'' ▸ List.mem_cons_self _ _)
    · exact Or.inr (List.mem_cons_of_mem _ h')

/-! ### Lemmas about the sorting pass -/

theorem sortedByReceivedAt_perm (parse : String → Option Int)
    (l : List ToolResult) : (sortedByReceivedAt parse l).Perm l :=
  List.mergeSort_perm l _

theorem mem_sortedByReceivedAt {parse : String → Option Int}
    {l : List ToolResult} {x : ToolResult} :
    x ∈ sortedByReceivedAt parse l ↔ x ∈ l :=
  (sortedByReceivedAt_perm parse l).mem_iff

theorem nodupIds_sortedByReceivedAt {parse : String → Option Int}
    {l : List ToolResult} (h : nodupIds l) :
    nodupIds (sortedByReceivedAt parse l) :=
  (((sortedByReceivedAt_perm parse l).map ToolResult.id).nodup_iff).mpr h

theorem sortByReceivedAt_trans (parse : String → Option Int)
    (a b c : ToolResult)
    (hab : sortByReceivedAt parse a b ≤ 0)
    (hbc : sortByReceivedAt parse b c ≤ 0) :
    sortByReceivedAt parse a c ≤ 0 := by
  unfold sortByReceivedAt at *
  rcases ha : parse a.receivedAt with _ | x <;>
    rcases hb : parse b.receivedAt with _ | y <;>
    rcases hc : parse c.receivedAt with _ | z <;>
    simp only [ha, hb, hc] at hab hbc ⊢ <;> omega

theorem sortByReceivedAt_total (parse : String → Option Int)
    (a b : ToolResult) :
    sortByReceivedAt parse a b ≤ 0 ∨ sortByReceivedAt parse b a ≤ 0 := by
  unfold sortByReceivedAt
  rcases ha : parse a.receivedAt with _ | x <;>
    rcases hb : parse b.receivedAt with _ | y <;>
    simp only [ha, hb] <;> omega

theorem pairwise_sortedByReceivedAt (parse : String → Option Int)
    (l : List ToolResult) :
    (sortedByReceivedAt parse l).Pairwise
      (fun a b => sortByReceivedAt parse a b ≤ 0) := by
  have h := @List.sorted_mergeSort ToolResult
    (fun a b : ToolResult => decide (sortByReceivedAt parse a b ≤ 0))
    (fun a b c hab hbc => by
      simp only [decide_eq_true_eq] at *
      exact sortByReceivedAt_trans parse a b c hab hbc)
    (fun a b => by
      simp only [Bool.or_eq_true, decide_eq_true_eq]
      exact sortByReceivedAt_total parse a b)
    l
  refine h.imp ?_
  intro a b hab
  simpa using hab

/-! ### Invariant lemmas for `recordToolResults` -/

theorem nodupIds_recordToolResults (parse : String → Option Int)
    {prev : List ToolResult} {b : Option (List ToolResult)}
    (hprev : nodupIds prev) (hb : ∀ l, b = some l → nodupIds l) :
    nodupIds (recordToolResults parse prev b) := by
  cases b with
  | none => exact hprev
  | some rs =>
    by_cases h0 : rs.length = 0
    · simpa [recordToolResults, h0] using hprev
    · by_cases hp : prev.length = 0
      · simpa [recordToolResults, h0, hp] using
          nodupIds_sortedByReceivedAt (hb rs rfl)
      · simpa [recordToolResults, h0, hp] using
          nodupIds_sortedByReceivedAt (nodupIds_foldl_upsert rs prev hprev)

theorem nodupIds_applyBatches_from (parse : String → Option Int)
    (batches : List (Option (List ToolResult))) :
    ∀ acc : List ToolResult, nodupIds acc →
      (∀ b ∈ batches, ∀ l, b = some l → nodupIds l) →
      nodupIds (batches.foldl (recordToolResults parse) acc) := by
  induction batches with
  | nil => intro acc hacc _; simpa using hacc
  | cons b tl ih =>
    intro acc hacc hb
    refine ih _ ?_ ?_
    · exact nodupIds_recordToolResults parse hacc
        (fun l hl => hb b (List.mem_cons_self _ _) l hl)
    · exact fun b' hb' l hl => hb b' (List.mem_cons_of_mem _ hb') l hl

theorem mem_recordToolResults_of_mem_batch (parse : String → Option Int)
    {prev rs : List ToolResult} {r : ToolResult}
    (hr : r ∈ rs) (hrs : nodupIds rs) :
    r ∈ recordToolResults parse prev (some rs) := by
  have h0 : ¬ rs.length = 0 := by
    intro h
    rw [List.length_eq_zero] at h
    subst h
    cases hr
  by_cases hp : prev.length = 0
  · simpa [recordToolResults, h0, hp, mem_sortedByReceivedAt] using hr
  · simpa [recordToolResults, h0, hp, mem_sortedByReceivedAt] using
      mem_foldl_upsert_of_mem_batch hr hrs prev

theorem mem_recordToolResults_of_mem_prev (parse : String → Option Int)
    {prev rs : List ToolResult} {x : ToolResult}
    (hx : x ∈ prev) (hid : x.id ∉ rs.map ToolResult.id) :
    x ∈ recordToolResults parse prev (some rs) := by
  have hp : ¬ prev.length = 0 := by
    intro h
    rw [List.length_eq_zero] at h
    subst h
    cases hx
  by_cases h0 : rs.length = 0
  · simpa [recordToolResults, h0] using hx
  · simpa [recordToolResults, h0, hp, mem_sortedByReceivedAt] using
      mem_foldl_upsert_of_mem rs prev hx hid

theorem mem_prev_or_batch_of_mem_recordToolResults (parse : String → Option Int)
    {prev rs : List ToolResult} {x : ToolResult}
    (hx : x ∈ recordToolResults parse prev (some rs)) : x ∈ prev ∨ x ∈ rs := by
  by_cases h0 : rs.length = 0
  · exact Or.inl (by simpa [recordToolResults, h0] using hx)
  · by_cases hp : prev.length = 0
    · rw [recordToolResults, if_neg h0, if_pos hp, mem_sortedByReceivedAt] at hx
      exact Or.inr hx
    · rw [recordToolResults, if_neg h0, if_neg hp, mem_sortedByReceivedAt] at hx
      exact mem_or_of_mem_foldl_upsert rs prev hx

theorem pairwise_recordToolResults (parse : String → Option Int)
    {prev : List ToolResult} (b : Option (List ToolResult))
    (hprev : prev.Pairwise (fun a c => sortByReceivedAt parse a c ≤ 0)) :
    (recordToolResults parse prev b).Pairwise
      (fun a c => sortByReceivedAt parse a c ≤ 0) := by
  cases b with
  | none => exact hprev
  | some rs =>
    by_cases h0 : rs.length = 0
    · simpa [recordToolResults, h0] using hprev
    · by_cases hp : prev.length = 0
      · simpa [recordToolResults, h0, hp] using
          pairwise_sortedByReceivedAt parse rs
      · simpa [recordToolResults, h0, hp] using
          pairwise_sortedByReceivedAt parse (rs.foldl upsertToolResult prev)

theorem pairwise_applyBatches_from (parse : String → Option Int)
    (batches : List (Option (List ToolResult))) :
    ∀ acc : List ToolResult,
      acc.Pairwise (fun a c => sortByReceivedAt parse a c ≤ 0) →
      (batches.foldl (recordToolResults parse) acc).Pairwise
        (fun a c => sortByReceivedAt parse a c ≤ 0) := by
  induction batches with
  | nil => intro acc hacc; simpa using hacc
  | cons b tl ih =>
    intro acc hacc
    exact ih _ (pairwise_recordToolResults parse b hacc)

/-! ### Concrete store entries used to evaluate the claims -/

/-- First pass: a `ToolResult` with id `"weather-1"`. -/
def weatherFirst : ToolResult :=
  { id := "weather-1", content := "seas 2-3 ft", receivedAt := "t0" }

/-- Second pass: a newer `ToolResult` re-emitted with the same id
`"weather-1"`. -/
def weatherSecond : ToolResult :=
  { id := "weather-1", content := "seas 4-5 ft", receivedAt := "t1" }

/-- Claim C1, as frozen: the original claim states that after **every**
sequence of recorded batches the log holds at most one entry per identifier.
This fails at a concrete input: recording, into the empty store, one batch
that itself carries two results with id `"weather-1"` takes the
`prev.length === 0` shortcut, which sorts the batch without any upsert, so
both duplicates survive. -/
theorem recordToolResults_dup_in_batch_counterexample :
    ¬ nodupIds (applyBatches (fun _ => none) [some [weatherFirst, weatherSecond]]) := by
  intro h
  rw [nodupIds] at h
  have hperm :
      ((sortedByReceivedAt (fun _ => none) [weatherFirst, weatherSecond]).map
        ToolResult.id).Perm
        ([weatherFirst, weatherSecond].map ToolResult.id) :=
    (sortedByReceivedAt_perm (fun _ => none) _).map _
  have heq :
      applyBatches (fun _ => none) [some [weatherFirst, weatherSecond]] =
        sortedByReceivedAt (fun _ => none) [weatherFirst, weatherSecond] := by
    simp [applyBatches, recordToolResults]
  rw [heq] at h
  have : ([weatherFirst, weatherSecond].map ToolResult.id).Nodup :=
    (hperm.nodup_iff).mp h
  simp [weatherFirst, weatherSecond] at this

/-- Claim C1 (amended): provided every recorded batch itself mentions each
identifier at most once, the store holds at most one entry per identifier
after any sequence of `recordToolResults` calls; within one call, every batch
entry lands in the store (latest content wins: any stored entry carrying a
batch entry's id *is* that batch entry), entries with untouched identifiers
survive, and no entry appears from nowhere.  In particular two passes each
producing a result with id `"weather-1"` leave exactly one entry with that
id, holding the content of the second pass. -/
theorem recordToolResults_upsert (parse : String → Option Int)
    (batches : List (Option (List ToolResult)))
    (hb : ∀ b ∈ batches, ∀ l, b = some l → nodupIds l) :
    nodupIds (applyBatches parse batches) ∧
    ∀ prev rs : List ToolResult, nodupIds prev → nodupIds rs →
      (∀ r ∈ rs, r ∈ recordToolResults parse prev (some rs)) ∧
      (∀ x ∈ prev, x.id ∉ rs.map ToolResult.id →
        x ∈ recordToolResults parse prev (some rs)) ∧
      (∀ x ∈ recordToolResults parse prev (some rs), x ∈ prev ∨ x ∈ rs) ∧
      (∀ r ∈ rs, ∀ x ∈ recordToolResults parse prev (some rs),
        x.id = r.id → x = r) := by
  refine ⟨nodupIds_applyBatches_from parse batches [] (by simp [nodupIds]) hb, ?_⟩
  intro prev rs hprev hrs
  refine ⟨fun r hr => mem_recordToolResults_of_mem_batch parse hr hrs,
    fun x hx hid => mem_recordToolResults_of_mem_prev parse hx hid,
    fun x hx => mem_prev_or_batch_of_mem_recordToolResults parse hx, ?_⟩
  intro r hr x hx hid
  have hnodup : nodupIds (recordToolResults parse prev (some rs)) :=
    nodupIds_recordToolResults parse hprev (fun l hl => by
      cases hl; exact hrs)
  have hrmem : r ∈ recordToolResults parse prev (some rs) :=
    mem_recordToolResults_of_mem_batch parse hr hrs
  exact List.inj_on_of_nodup_map hnodup hx hrmem hid

/-- Witness for C1: two singleton passes with id `"weather-1"` leave a
duplicate-free log, and the second pass's entry is what the upsert stores. -/
theorem recordToolResults_upsert_witness :
    nodupIds (applyBatches (fun _ => none) [some [weatherFirst], some [weatherSecond]]) ∧
    weatherSecond ∈ recordToolResults (fun _ => none) [weatherFirst] (some [weatherSecond]) := by
  constructor
  · exact (recordToolResults_upsert (fun _ => none)
      [some [weatherFirst], some [weatherSecond]]
      (by
        intro b hb l hl
        rcases List.mem_cons.mp hb with rfl | hb
        · cases hl
          show ([weatherFirst].map ToolResult.id).Nodup
          decide
        · rcases List.mem_cons.mp hb with rfl | hb
          · cases hl
            show ([weatherSecond].map ToolResult.id).Nodup
            decide
          · cases hb)).1
  · exact (((recordToolResults_upsert (fun _ => none) [] (by simp)).2
      [weatherFirst] [weatherSecond]
      (show ([weatherFirst].map ToolResult.id).Nodup by decide)
      (show ([weatherSecond].map ToolResult.id).Nodup by decide)).1
      weatherSecond (List.mem_cons_self _ _))

/-- Claim C10: after every `recordToolResults` call the stored list is sorted
ascending by the parsed `receivedAt` (comparator ≤ 0 pairwise), entries whose
`receivedAt` does not parse sit before parseable ones, and a `null`/empty
update leaves the stored list unchanged. -/
theorem recordToolResults_sorted (parse : String → Option Int)
    (batches : List (Option (List ToolResult))) :
    (applyBatches parse batches).Pairwise
      (fun a b => sortByReceivedAt parse a b ≤ 0) ∧
    (applyBatches parse batches).Pairwise
      (fun a b => parse b.receivedAt = none → parse a.receivedAt = none) ∧
    ∀ prev : List ToolResult,
      recordToolResults parse prev none = prev ∧
      recordToolResults parse prev (some []) = prev := by
  have hsorted :
      (applyBatches parse batches).Pairwise
        (fun a b => sortByReceivedAt parse a b ≤ 0) :=
    pairwise_applyBatches_from parse batches [] (by simp)
  refine ⟨hsorted, ?_, ?_⟩
  · refine hsorted.imp ?_
    intro a b hab hbnone
    rcases ha : parse a.receivedAt with _ | x
    · rfl
    · exfalso
      have hone : sortByReceivedAt parse a b = 1 := by
        simp [sortByReceivedAt, ha, hbnone]
      omega
  · intro prev
    exact ⟨rfl, by simp [recordToolResults]⟩

/-! ## Mock chat API route (`app/api/mock/chat/route.ts`) -/

/-- JavaScript `String.prototype.trim`: strip whitespace from both ends,
embedded over the character list so it evaluates in the kernel. -/
def jsTrim (s : String) : String :=
  String.mk (((s.toList.dropWhile Char.isWhitespace).reverse.dropWhile
    Char.isWhitespace).reverse)

/-- An HTTP response produced with `NextResponse.json(body, { status })`;
the default status is 200. -/
structure HttpResponse where
  status : Nat
  body : AgentChatResponse
deriving Repr, DecidableEq

/-- The outcome of `request.json()`: either it resolves (carrying the
`message` field when that field is a string), or the promise rejects on a
malformed body. -/
inductive ChatRequestJson where
  | value (message : Option String)
  | rejected
deriving Repr, DecidableEq

/-- `await request.json().catch(() => null)`: a rejection becomes `null`. -/
def jsonOrNull : ChatRequestJson → Option (Option String)
  | .value m => some m
  | .rejected => none

/-- `MOCK_AGENT_RESPONSES` from `route.ts`.  The module-load timestamps
(`new Date().toISOString()`, `Date.now() + k minutes`) are rendered through
the abstract clock `iso`/`now`; heterogeneous metadata values are stringified
into the open metadata map. -/
def MOCK_AGENT_RESPONSES (iso : Int → String) (now : Int) :
    List AgentChatResponse :=
  [ { message := "Great! I pulled your trip preferences — warm offshore waters targeting mahi-mahi for a party of four. I can keep tracking bait availability and seasonal catches as you plan.",
      toolResults := some
        [ { id := some "trip-overview",
            toolName := some "trip_planner",
            title := some "Trip Preferences Identified",
            content := some "Target species: mahi-mahi\nGuests: 4 anglers\nPreferred window: next 2 weeks\nNotes: captain-provided gear requested",
            metadata := some
              [("species", "Mahi-mahi"), ("guests", "4"),
               ("window", "Next 2 weeks"), ("gear", "captain-provided")],
            createdAt := some (iso now) } ] },
    { message := "Conditions look favorable — seas around 2-3 ft with light northeast winds. I also checked the charter docks: two of our partner captains have early morning departures available for full-day runs.",
      toolResults := some
        [ { id := some "weather-brief",
            toolName := some "marine_weather",
            title := some "Marine Forecast • Key West",
            content := some "Saturday: NE winds 10-12 kts, seas 2-3 ft. Sunrise 6:45 AM, best bite expected mid-morning on the edge.",
            metadata := some
              [("location", "Key West, FL"), ("wind", "10-12 kts NE"),
               ("seas", "2-3 ft")],
            createdAt := some (iso (now + 2 * 60 * 1000)) },
          { id := some "availability-scan",
            toolName := some "charter_lookup",
            title := some "Partner Charter Openings",
            content := some "Pelagic Pursuit: 6:30 AM departure • $1,200\nReel Current: 7:00 AM departure • $1,250 (includes upgraded tackle)",
            metadata := some [("operators", "Pelagic Pursuit, Reel Current")],
            createdAt := some (iso (now + 3 * 60 * 1000)) } ] },
    { message := "Want me to lock in the charter while those slots are open? I can hop on a quick call with the captain, confirm the details, and loop you in live.",
      toolResults := some
        [ { id := some "call-script",
            toolName := some "call_preparation",
            title := some "Call Preparation Notes",
            content := some "Confirm: party of 4, full-day, next Saturday. Mention bait preference for mahi and that guests need licenses included.",
            metadata := some
              [("duration", "Full day"), ("guests", "4"),
               ("targetDate", "Upcoming Saturday")],
            createdAt := some (iso (now + 4 * 60 * 1000)) } ],
      callSuggested := some true } ]

/-- The `try` body of the mock chat `POST` handler: parse (with the inner
`catch`), pick the canned response by the module-level `responseIndex`, and
advance the index modulo the response count.  An `Except.error` would model
an exception escaping the body. -/
def mockChatBody (iso : Int → String) (now : Int) (j : ChatRequestJson)
    (responseIndex : Nat) : Except String (HttpResponse × Nat) :=
  let payload := jsonOrNull j
  let userMessage := match payload with
    | some (some s) => jsTrim s
    | _ => ""
  if userMessage = "" then
    .ok ({ status := 200,
           body := { message := "Let me know how I can help and I\x27ll start pulling the latest charter intel." } },
         responseIndex)
  else
    let responses := MOCK_AGENT_RESPONSES iso now
    let response := (responses.get? responseIndex).getD
      (responses.getLastD { message := "" })
    .ok ({ status := 200, body := response }, (responseIndex + 1) % responses.length)

/-- The full mock chat `POST` handler: the `try`/`catch` converts any fault
of the body into a 500 response instead of re-raising. -/
def mockChatPOST (iso : Int → String) (now : Int) (j : ChatRequestJson)
    (responseIndex : Nat) : HttpResponse × Nat :=
  match mockChatBody iso now j responseIndex with
  | .ok r => r
  | .error _ =>
    ({ status := 500,
       body := { message := "Something went wrong fetching insights. Try again in a moment." } },
     responseIndex)

/-- Statement helper: a wire payload carrying all six `ToolResult` fields. -/
def payloadComplete (p : ToolResultPayload) : Bool :=
  p.id.isSome && p.toolName.isSome && p.title.isSome && p.content.isSome &&
    p.metadata.isSome && p.createdAt.isSome

/-- Claim C2: for every inbound chat request — any message value, a body
whose JSON parse rejects, or any stored response index — the mock chat
endpoint's `try` body finishes without a fault and the handler returns that
result as a response; a rejected parse still yields a 200 response.  No
exception reaches the caller. -/
theorem mockChatPOST_never_raises (iso : Int → String) (now : Int)
    (j : ChatRequestJson) (responseIndex : Nat) :
    (∃ out, mockChatBody iso now j responseIndex = Except.ok out ∧
      mockChatPOST iso now j responseIndex = out) ∧
    (mockChatPOST iso now ChatRequestJson.rejected responseIndex).1.status = 200 := by
  have hbody : ∃ out, mockChatBody iso now j responseIndex = Except.ok out := by
    cases j with
    | rejected => exact ⟨_, rfl⟩
    | value m =>
      cases m with
      | none => exact ⟨_, rfl⟩
      | some s =>
        simp only [mockChatBody, jsonOrNull]
        split <;> exact ⟨_, rfl⟩
  obtain ⟨out, hout⟩ := hbody
  refine ⟨⟨out, hout, ?_⟩, rfl⟩
  simp only [mockChatPOST, hout]

/-- Claim C3, as frozen: the claim that **every** chat response carries all
three fields fails on the code.  The empty-message fallback response (here:
the rejected-parse request) is built as `{ message }` only, so its
`toolResults` and `callSuggested` fields are absent. -/
theorem mockChatResponse_missing_fields_counterexample :
    (mockChatPOST (fun _ => "") 0 ChatRequestJson.rejected 0).1.body.toolResults
        = none ∧
    (mockChatPOST (fun _ => "") 0 ChatRequestJson.rejected 0).1.body.callSuggested
        = none :=
  ⟨rfl, rfl⟩

set_option maxRecDepth 16384 in
/-- Claim C3 (amended): every mock chat response carries a non-empty
`message` string, while `toolResults` and `callSuggested` are optional; every
`ToolResult` payload actually carried in a response has all six fields `id`,
`toolName`, `title`, `content`, `metadata`, `createdAt` populated. -/
theorem mockChatResponse_shape (iso : Int → String) (now : Int)
    (j : ChatRequestJson) (responseIndex : Nat) :
    (mockChatPOST iso now j responseIndex).1.body.message.isEmpty = false ∧
    ((mockChatPOST iso now j responseIndex).1.body.toolResults.getD []).all
      payloadComplete = true := by
  cases j with
  | rejected => exact ⟨rfl, rfl⟩
  | value m =>
    cases m with
    | none => exact ⟨rfl, rfl⟩
    | some s =>
      by_cases h : jsTrim s = ""
      · refine ⟨?_, ?_⟩ <;>
          simp [mockChatPOST, mockChatBody, jsonOrNull, h] <;> decide
      · rcases responseIndex with _ | _ | _ | n <;>
          refine ⟨?_, ?_⟩ <;>
          simp [mockChatPOST, mockChatBody, jsonOrNull, h,
            MOCK_AGENT_RESPONSES, payloadComplete] <;>
          decide

/-! ## Chatbot component (`components/dashboard/chatbot.tsx`) -/

/-- `payload.content ?? payload.output ?? payload.text` from
`normalizeToolResults`. -/
def rawContent (p : ToolResultPayload) : Option String :=
  p.content.or (p.output.or p.text)

/-- The loop of `normalizeToolResults`, with the counter `n` indexing the
abstract supply of freshly generated identifiers (`crypto.randomUUID()` /
`tool-${Date.now()}-…`): `null` payloads are skipped, a payload without a
usable non-empty string content is skipped, the payload id is kept when
present and non-blank, and `receivedAt` falls back to the current time. -/
def normalizeGo (freshId : Nat → String) (now : String) :
    Nat → List (Option ToolResultPayload) → List ToolResult
  | _, [] => []
  | n, none :: rest => normalizeGo freshId now n rest
  | n, some p :: rest =>
    match rawContent p with
    | none => normalizeGo freshId now n rest
    | some c =>
      if c = "" then normalizeGo freshId now n rest
      else
        match p.id with
        | some i =>
          if jsTrim i = "" then
            { id := freshId n, toolName := p.toolName, title := p.title,
              content := c, metadata := p.metadata,
              receivedAt := p.createdAt.getD now } ::
              normalizeGo freshId now (n + 1) rest
          else
            { id := i, toolName := p.toolName, title := p.title,
              content := c, metadata := p.metadata,
              receivedAt := p.createdAt.getD now } ::
              normalizeGo freshId now n rest
        | none =>
          { id := freshId n, toolName := p.toolName, title := p.title,
            content := c, metadata := p.metadata,
            receivedAt := p.createdAt.getD now } ::
            normalizeGo freshId now (n + 1) rest

/-- `normalizeToolResults` from `chatbot.tsx`: `none` models a
`null`/`undefined` payload list; an empty list short-circuits to `[]`. -/
def normalizeToolResults (freshId : Nat → String) (now : String) :
    Option (List (Option ToolResultPayload)) → List ToolResult
  | none => []
  | some payloads =>
    if payloads.length = 0 then [] else normalizeGo freshId now 0 payloads

/-- Statement helper: the content/timestamp a payload contributes when it is
kept (`none` when the payload is dropped). -/
def keptContentTime (now : String) (op : Option ToolResultPayload) :
    Option (String × String) :=
  op.bind fun p => (rawContent p).bind fun c =>
    if c = "" then none else some (c, p.createdAt.getD now)

/-- Statement helper: the payload itself when it is kept. -/
def keptPayload (op : Option ToolResultPayload) : Option ToolResultPayload :=
  op.bind fun p => (rawContent p).bind fun c =>
    if c = "" then none else some p

theorem normalizeToolResults_eq_go (freshId : Nat → String) (now : String)
    (payloads : Option (List (Option ToolResultPayload))) :
    normalizeToolResults freshId now payloads =
      normalizeGo freshId now 0 (payloads.getD []) := by
  cases payloads with
  | none => rfl
  | some ps =>
    cases ps with
    | nil => rfl
    | cons hd tl => simp [normalizeToolResults]

theorem normalizeGo_proj (freshId : Nat → String) (now : String) :
    ∀ (ps : List (Option ToolResultPayload)) (n : Nat),
      (normalizeGo freshId now n ps).map (fun r => (r.content, r.receivedAt)) =
        ps.filterMap (keptContentTime now) := by
  intro ps
  induction ps with
  | nil => intro n; rfl
  | cons op rest ih =>
    intro n
    cases op with
    | none => simpa [normalizeGo, keptContentTime] using ih n
    | some p =>
      rcases hc : rawContent p with _ | c
      · simpa [normalizeGo, keptContentTime, hc] using ih n
      · by_cases h0 : c = ""
        · simpa [normalizeGo, keptContentTime, hc, h0] using ih n
        · rcases hid : p.id with _ | i
          · simpa [normalizeGo, keptContentTime, hc, h0, hid] using ih (n + 1)
          · by_cases hb : jsTrim i = ""
            · simpa [normalizeGo, keptContentTime, hc, h0, hid, hb] using ih (n + 1)
            · simpa [normalizeGo, keptContentTime, hc, h0, hid, hb] using ih n

theorem normalizeGo_content_id (freshId : Nat → String) (now : String)
    (hfresh : ∀ k, freshId k ≠ "") :
    ∀ (ps : List (Option ToolResultPayload)) (n : Nat),
      ∀ r ∈ normalizeGo freshId now n ps, r.content ≠ "" ∧ r.id ≠ "" := by
  intro ps
  induction ps with
  | nil => intro n r hr; cases hr
  | cons op rest ih =>
    intro n r hr
    cases op with
    | none => exact ih n r (by simpa [normalizeGo] using hr)
    | some p =>
      rcases hc : rawContent p with _ | c
      · exact ih n r (by simpa [normalizeGo, hc] using hr)
      · by_cases h0 : c = ""
        · exact ih n r (by simpa [normalizeGo, hc, h0] using hr)
        · rcases hid : p.id with _ | i
          · rw [normalizeGo, hc] at hr
            simp only [h0, if_neg, hid] at hr
            rcases List.mem_cons.mp hr with rfl | hr
            · exact ⟨h0, hfresh n⟩
            · exact ih (n + 1) r hr
          · by_cases hb : jsTrim i = ""
            · rw [normalizeGo, hc] at hr
              simp only [h0, if_neg, hid, hb, if_pos] at hr
              rcases List.mem_cons.mp hr with rfl | hr
              · exact ⟨h0, hfresh n⟩
              · exact ih (n + 1) r hr
            · rw [normalizeGo, hc] at hr
              simp only [h0, if_neg, hid, hb] at hr
              rcases List.mem_cons.mp hr with rfl | hr
              · refine ⟨h0, fun hi => hb ?_⟩
                have hi' : i = "" := hi
                rw [hi']
                decide
              · exact ih n r hr

theorem normalizeGo_zip (freshId : Nat → String) (now : String) :
    ∀ (ps : List (Option ToolResultPayload)) (n : Nat),
      ∀ pr ∈ (normalizeGo freshId now n ps).zip (ps.filterMap keptPayload),
        (∀ i, pr.2.id = some i → jsTrim i ≠ "" → pr.1.id = i) ∧
        ((pr.2.id = none ∨ ∃ i, pr.2.id = some i ∧ jsTrim i = "") →
          ∃ k, pr.1.id = freshId k) := by
  intro ps
  induction ps with
  | nil => intro n pr hpr; cases hpr
  | cons op rest ih =>
    intro n pr hpr
    cases op with
    | none => exact ih n pr (by simpa [normalizeGo, keptPayload] using hpr)
    | some p =>
      rcases hc : rawContent p with _ | c
      · exact ih n pr (by simpa [normalizeGo, keptPayload, hc] using hpr)
      · by_cases h0 : c = ""
        · exact ih n pr (by simpa [normalizeGo, keptPayload, hc, h0] using hpr)
        · rcases hid : p.id with _ | i
          · rw [normalizeGo, hc] at hpr
            simp only [h0, if_neg, hid] at hpr
            rw [List.filterMap_cons] at hpr
            simp only [keptPayload, Option.bind, hc, h0, if_neg] at hpr
            rcases List.mem_cons.mp hpr with rfl | hpr
            · exact ⟨fun i hi => by simp [hid] at hi, fun _ => ⟨n, rfl⟩⟩
            · exact ih (n + 1) pr hpr
          · by_cases hb : jsTrim i = ""
            · rw [normalizeGo, hc] at hpr
              simp only [h0, if_neg, hid, hb, if_pos] at hpr
              rw [List.filterMap_cons] at hpr
              simp only [keptPayload, Option.bind, hc, h0, if_neg] at hpr
              rcases List.mem_cons.mp hpr with rfl | hpr
              · refine ⟨fun i' hi' hbi' => absurd ?_ hbi', fun _ => ⟨n, rfl⟩⟩
                have : i' = i := by
                  rw [hid] at hi'
                  exact (Option.some.injEq _ _ ▸ hi').symm ▸ rfl
                rw [this]
                exact hb
              · exact ih (n + 1) pr hpr
            · rw [normalizeGo, hc] at hpr
              simp only [h0, if_neg, hid, hb] at hpr
              rw [List.filterMap_cons] at hpr
              simp only [keptPayload, Option.bind, hc, h0, if_neg] at hpr
              rcases List.mem_cons.mp hpr with rfl | hpr
              · refine ⟨fun i' hi' _ => ?_, fun hfr => ?_⟩
                · rw [hid] at hi'
                  cases hi'
                  rfl
                · rcases hfr with hnone | ⟨i', hi', hbi'⟩
                  · rw [hid] at hnone
                    cases hnone
                  · rw [hid] at hi'
                    cases hi'
                    exact absurd hbi' hb
              · exact ih n pr hpr

/-- Claim C8: for every payload list, `normalizeToolResults` keeps exactly
the non-null payloads with a usable non-empty string content (taken from
`content`, else `output`, else `text`), in input order, pairing each with the
payload's `createdAt` or else the current time; every produced entry carries
a non-empty id — the payload id when present and non-blank, a freshly
generated one otherwise. -/
theorem normalizeToolResults_spec (freshId : Nat → String) (now : String)
    (payloads : Option (List (Option ToolResultPayload)))
    (hfresh : ∀ k, freshId k ≠ "") :
    ((normalizeToolResults freshId now payloads).map
        (fun r => (r.content, r.receivedAt)) =
      (payloads.getD []).filterMap (keptContentTime now)) ∧
    (∀ r ∈ normalizeToolResults freshId now payloads,
      r.content ≠ "" ∧ r.id ≠ "") ∧
    (∀ pr ∈ (normalizeToolResults freshId now payloads).zip
        ((payloads.getD []).filterMap keptPayload),
      (∀ i, pr.2.id = some i → jsTrim i ≠ "" → pr.1.id = i) ∧
      ((pr.2.id = none ∨ ∃ i, pr.2.id = some i ∧ jsTrim i = "") →
        ∃ k, pr.1.id = freshId k)) := by
  rw [normalizeToolResults_eq_go]
  exact ⟨normalizeGo_proj freshId now _ 0,
    fun r hr => normalizeGo_content_id freshId now hfresh _ 0 r hr,
    fun pr hpr => normalizeGo_zip freshId now _ 0 pr hpr⟩

/-- Witness for C8 at a concrete input: one payload with content `"hello"`
and id `"a"` followed by a `null` payload normalizes to a single entry
carrying `("hello", "now0")`. -/
theorem normalizeToolResults_spec_witness :
    (normalizeToolResults (fun _ => "tool-generated") "now0"
        (some [some { content := some "hello", id := some "a" }, none])).map
        (fun r => (r.content, r.receivedAt)) = [("hello", "now0")] := by
  have h := normalizeToolResults_spec (fun _ => "tool-generated") "now0"
    (some [some { content := some "hello", id := some "a" }, none])
    (fun k => by show "tool-generated" ≠ ""; decide)
  exact h.1.trans (by decide)

/-! ### Chat message list (`handleSendMessage` state updates) -/

/-- `Message.sender` in `chatbot.tsx`. -/
inductive MsgSender where
  | user
  | bot
deriving Repr, DecidableEq

/-- `Message.status` in `chatbot.tsx`. -/
inductive MsgStatus where
  | pending
  | delivered
deriving Repr, DecidableEq

/-- `Message.variant` in `chatbot.tsx` (only `'call-suggestion'` exists). -/
inductive MsgVariant where
  | callSuggestion
deriving Repr, DecidableEq

/-- The chatbot `Message` record. -/
structure Message where
  id : String
  sender : MsgSender
  text : Option String := none
  status : Option MsgStatus := none
  variant : Option MsgVariant := none
deriving Repr, DecidableEq

/-- The `'agent-pending'` placeholder appended while the agent is thinking. -/
def pendingMessage : Message :=
  { id := "agent-pending", sender := .bot, text := some "Thinking…",
    status := some .pending }

/-- The first `setMessages` call of `handleSendMessage`: append the user's
message and the pending placeholder.  The generated message id is the
abstract `uid`. -/
def appendOutgoing (msgs : List Message) (uid text : String) : List Message :=
  msgs ++
    [{ id := uid, sender := .user, text := some text, status := some .delivered },
     pendingMessage]

/-- The delivered bot reply bubble pushed on the success path. -/
def botReply (bid text : String) : Message :=
  { id := bid, sender := .bot, text := some text, status := some .delivered }

/-- The call-suggestion bubble pushed when `payload.callSuggested` is set. -/
def suggestionBubble (sid : String) : Message :=
  { id := sid, sender := .bot, status := some .delivered,
    variant := some MsgVariant.callSuggestion }

/-- `if (payload.message) next.push(bot reply)` on the success path. -/
def applyBotReply (next : List Message) (payload : AgentChatResponse)
    (bid : String) : List Message :=
  if payload.message ≠ "" then next ++ [botReply bid payload.message] else next

/-- `if (payload.callSuggested)` on the success path: push a call-suggestion
bubble unless one is already present (`next.some(...)`). -/
def applySuggestion (next : List Message) (payload : AgentChatResponse)
    (sid : String) : List Message :=
  if payload.callSuggested = some true then
    if next.any (fun m => m.variant == some MsgVariant.callSuggestion) then next
    else next ++ [suggestionBubble sid]
  else next

/-- The success-path `setMessages` update: drop the pending placeholder
(`prev.slice(0, -1)`), append the bot reply when `payload.message` is truthy,
and append a call-suggestion bubble when `payload.callSuggested` is truthy
and none is present yet. -/
def applyAgentResponse (msgs : List Message) (payload : AgentChatResponse)
    (bid sid : String) : List Message :=
  applySuggestion (applyBotReply msgs.dropLast payload bid) payload sid

/-- The failure-path `setMessages` update: drop the pending placeholder by
id. -/
def dropPending (msgs : List Message) : List Message :=
  msgs.filter (fun m => m.id != "agent-pending")

/-- The initial `useState` message list (the greeting bubble). -/
def initialMessages (bid : String) : List Message :=
  [{ id := bid, sender := .bot,
     text := some "Hello! How can I assist you today?",
     status := some .delivered }]

/-- The message lists the chatbot can reach through its `setMessages`
updates. -/
inductive ChatReachable : List Message → Prop
  | init (bid : String) : ChatReachable (initialMessages bid)
  | send (msgs : List Message) (uid text : String) :
      ChatReachable msgs → ChatReachable (appendOutgoing msgs uid text)
  | success (msgs : List Message) (payload : AgentChatResponse)
      (bid sid : String) :
      ChatReachable msgs → ChatReachable (applyAgentResponse msgs payload bid sid)
  | failure (msgs : List Message) :
      ChatReachable msgs → ChatReachable (dropPending msgs)

/-- Statement helper: how many call-suggestion bubbles a message list holds. -/
def suggestionCount (msgs : List Message) : Nat :=
  (msgs.filter (fun m => m.variant == some MsgVariant.callSuggestion)).length

theorem suggestionCount_append (l₁ l₂ : List Message) :
    suggestionCount (l₁ ++ l₂) = suggestionCount l₁ + suggestionCount l₂ := by
  simp [suggestionCount, List.filter_append]

theorem suggestionCount_dropLast_le (l : List Message) :
    suggestionCount l.dropLast ≤ suggestionCount l :=
  ((List.dropLast_sublist l).filter _).length_le

theorem suggestionCount_filter_le (p : Message → Bool) (l : List Message) :
    suggestionCount (l.filter p) ≤ suggestionCount l :=
  ((List.filter_sublist l).filter _).length_le

theorem suggestionCount_eq_zero_of_not_any {l : List Message}
    (h : l.any (fun m => m.variant == some MsgVariant.callSuggestion) = false) :
    suggestionCount l = 0 := by
  rw [suggestionCount, List.length_eq_zero, List.filter_eq_nil_iff]
  intro m hm
  rw [List.any_eq_false] at h
  exact h m hm

/-- Claim C9: every reachable chatbot message list contains at most one
message with variant `'call-suggestion'` — the suggestion bubble is appended
only when `next.some(... variant === 'call-suggestion')` is false, and no
other update introduces one. -/
theorem chatbot_single_call_suggestion (msgs : List Message)
    (h : ChatReachable msgs) : suggestionCount msgs ≤ 1 := by
  induction h with
  | init bid => simp [suggestionCount, initialMessages]
  | send msgs uid text _ ih =>
    rw [appendOutgoing, suggestionCount_append]
    simpa [suggestionCount, pendingMessage] using ih
  | success msgs payload bid sid _ ih =>
    have hdrop : suggestionCount msgs.dropLast ≤ 1 :=
      le_trans (suggestionCount_dropLast_le msgs) ih
    have hbase : suggestionCount (applyBotReply msgs.dropLast payload bid) ≤ 1 := by
      rw [applyBotReply]
      split
      · rw [suggestionCount_append]
        simpa [suggestionCount, botReply] using hdrop
      · exact hdrop
    rw [applyAgentResponse, applySuggestion]
    split
    · split
      · exact hbase
      · rename_i hany
        rw [Bool.not_eq_true] at hany
        rw [suggestionCount_append, suggestionCount_eq_zero_of_not_any hany]
        simp [suggestionCount, suggestionBubble]
    · exact hbase
  | failure msgs _ ih =>
    exact le_trans (suggestionCount_filter_le _ msgs) ih

/-- Witness for C9: the initial greeting list is reachable and carries no
call-suggestion bubble. -/
theorem chatbot_single_call_suggestion_witness :
    suggestionCount (initialMessages "bot-0") ≤ 1 :=
  chatbot_single_call_suggestion _ (ChatReachable.init "bot-0")

/-! ## Orchestration core, modelled from the specification

The engine itself (`server/src/agent`: toolkit registry, LangGraph pipeline,
built-in capabilities) is not among the sources — only its README and
requirements documents are.  The definitions below therefore follow the
specification's own words (§3 data model, §4.2 contract & registry, §4.3
pipeline, §4.4 built-in capabilities). -/

namespace AgentCore

/-- Modelled from the spec: `PlanSnapshot` (§3) — the missing
`conversation_models.py` plan record; a mapping of required field name to
collected value plus the optional target species. -/
structure PlanSnapshot where
  date : Option String := none
  participants : Option String := none
  fishingType : Option String := none
  budget : Option String := none
  gear : Option String := none
  transportation : Option String := none
  targetSpecies : Option String := none
deriving Repr, DecidableEq

/-- Modelled from the spec: the fixed required-field set (§2.3 of the agent
requirements / §3: date, participants, fishing type, budget, gear,
transportation; target species optional). -/
def requiredFields : List String :=
  ["date", "participants", "fishing_type", "budget", "gear", "transportation"]

/-- Modelled from the spec: whether a required field is populated in the
snapshot. -/
def populated (p : PlanSnapshot) : String → Bool
  | "date" => p.date.isSome
  | "participants" => p.participants.isSome
  | "fishing_type" => p.fishingType.isSome
  | "budget" => p.budget.isSome
  | "gear" => p.gear.isSome
  | "transportation" => p.transportation.isSome
  | _ => false

/-- Modelled from the spec: `missing` is always the required fields minus the
populated fields of the current snapshot (§3 invariants). -/
def computeMissing (p : PlanSnapshot) : List String :=
  requiredFields.filter (fun f => !populated p f)

/-- Modelled from the spec: the derived completeness flag of a snapshot. -/
def planComplete (p : PlanSnapshot) : Bool :=
  (computeMissing p).isEmpty

/-- Modelled from the spec: a `ToolResult` entry of the pipeline's output log
(`types.py` `ChatToolResult`): identifier, capability name, title, textual
content, open metadata map, creation timestamp. -/
structure ChatToolResult where
  id : String
  toolName : String
  title : String
  content : String
  metadata : List (String × String) := []
  createdAt : String
deriving Repr, DecidableEq

/-- Modelled from the spec: the session state (§3 `ConversationState`):
session identifier, ordered message history, current snapshot, tool-result
log, pending follow-up queue, derived missing list, plus the selected
business, the explicit-reservation flag derived at intake, and the call
identifier recorded once call placement fires. -/
structure ConversationState where
  sessionId : String
  history : List String := []
  plan : PlanSnapshot := {}
  toolLog : List ChatToolResult := []
  pending : List String := []
  missing : List String := []
  business : Option String := none
  requestedReservation : Bool := false
  callId : Option String := none
deriving Repr, DecidableEq

/-- Modelled from the spec: a capability's `Output` (§4.2): state-field
updates (mapping), tool results, follow-up action names. -/
structure Output where
  updates : List (String × String) := []
  results : List ChatToolResult := []
  followUps : List String := []

/-- Modelled from the spec: the capability contract (§4.2):
`applies_to(state)` side-effect free, `execute(context)` producing an
`Output`. -/
structure Capability where
  name : String
  applies : ConversationState → Bool
  execute : ConversationState → Output

/-- Modelled from the spec: requested actions are resolved first, in the
order given, each at most once (§4.2 registry `order`). -/
def resolveRequested (requested : List String)
    (registered : List Capability) : List Capability :=
  requested.foldl
    (fun acc a =>
      match registered.find? (fun c => c.name == a) with
      | some c => if acc.any (fun d => d.name == c.name) then acc else acc ++ [c]
      | none => acc)
    []

/-- Modelled from the spec: `order(requested_actions)` — requested actions
first, in the order given, followed by all other registered capabilities in
registration order, each included once even if matched by both. -/
def order (requested : List String) (registered : List Capability) :
    List Capability :=
  let picked := resolveRequested requested registered
  picked ++ registered.filter (fun c => !picked.any (fun d => d.name == c.name))

/-- Modelled from the spec: merge one state-field update into the
`ConversationState` (field-level overwrite; unknown fields are ignored). -/
def applyUpdate (st : ConversationState) (u : String × String) :
    ConversationState :=
  match u.1 with
  | "date" => { st with plan := { st.plan with date := some u.2 } }
  | "participants" => { st with plan := { st.plan with participants := some u.2 } }
  | "fishing_type" => { st with plan := { st.plan with fishingType := some u.2 } }
  | "budget" => { st with plan := { st.plan with budget := some u.2 } }
  | "gear" => { st with plan := { st.plan with gear := some u.2 } }
  | "transportation" => { st with plan := { st.plan with transportation := some u.2 } }
  | "target_species" => { st with plan := { st.plan with targetSpecies := some u.2 } }
  | "business" => { st with business := some u.2 }
  | "call_id" => { st with callId := some u.2 }
  | _ => st

/-- Modelled from the spec: upsert one tool result into the output log by
identifier (§3: re-emission with the same identifier replaces). -/
def upsertChatToolResult : List ChatToolResult → ChatToolResult → List ChatToolResult
  | [], r => [r]
  | x :: xs, r =>
    if x.id == r.id then r :: xs else x :: upsertChatToolResult xs r

/-- Modelled from the spec: one capability step of EXECUTE (§4.3): when
`applies_to(state)` holds, run `execute`, merge its field updates
(last-writer-wins), upsert its tool results, append its follow-ups. -/
def runCapability (st : ConversationState) (c : Capability) : ConversationState :=
  if c.applies st then
    let out := c.execute st
    let st' := out.updates.foldl applyUpdate st
    { st' with
      toolLog := out.results.foldl upsertChatToolResult st'.toolLog,
      pending := st'.pending ++ out.followUps }
  else st

/-- Modelled from the spec: run the ordered capability list sequentially over
the shared state (§4.3 EXECUTE; §5: sequential because later capabilities
read fields written by earlier ones). -/
def executePass (caps : List Capability) (st : ConversationState) :
    ConversationState :=
  caps.foldl runCapability st

/-- Modelled from the spec: user explicitly requests a reservation when the
message mentions a call. -/
def mentionsCall : List Char → Bool
  | [] => false
  | c :: rest => (['c', 'a', 'l', 'l'].isPrefixOf (c :: rest)) || mentionsCall rest

/-- Modelled from the spec: the intake-derived explicit-reservation flag. -/
def requestsReservation (msg : String) : Bool :=
  mentionsCall msg.toList

/-- Modelled from the spec: INTAKE derives candidate requested actions from
the message content and the current missing list (an incomplete plan
requests the planning capability; a reservation request requests call
placement). -/
def deriveActions (msg : String) (st : ConversationState) : List String :=
  (if requestsReservation msg then ["call"] else []) ++
    (if (computeMissing st.plan).isEmpty then [] else ["planner"])

/-- Modelled from the spec: the deterministic fallback composer (§4.3
COMPOSE): ask for the missing fields when any, else summarize the leading
tool result. -/
def composeMessage (st : ConversationState) : String :=
  if st.missing.isEmpty then
    match st.toolLog with
    | [] => "How can I help with your fishing plan?"
    | r :: _ => r.content
  else
    "Please provide: " ++ String.intercalate ", " st.missing

/-- Modelled from the spec: the response shape of §4.3 DONE. -/
structure AgentResponse where
  message : String
  toolResults : List ChatToolResult
  callSuggested : Bool
deriving Repr, DecidableEq

/-- Modelled from the spec: DONE returns `{message, toolResults,
callSuggested}` with `callSuggested` true iff the plan is complete and no
call-placement capability has yet fired for this plan (the recorded call
identifier is the fired marker). -/
def composeDone (st : ConversationState) : AgentResponse :=
  { message := composeMessage st,
    toolResults := st.toolLog,
    callSuggested := planComplete st.plan && st.callId.isNone }

/-- Modelled from the spec: one full pipeline pass (§4.3
INTAKE → EXECUTE → COMPOSE → DONE), with `missing` recomputed from the latest
snapshot after all capabilities ran. -/
def pipelinePass (registry : List Capability) (msg : String)
    (st : ConversationState) : AgentResponse × ConversationState :=
  let st1 := { st with history := st.history ++ [msg],
                       requestedReservation := requestsReservation msg }
  let requested := deriveActions msg st1
  let st2 := executePass (order requested registry) st1
  let st3 := { st2 with missing := computeMissing st2.plan }
  (composeDone st3, st3)

/-- Modelled from the spec: the state created on a session's first message,
with `missing` derived from the empty snapshot. -/
def initialState (sid : String) : ConversationState :=
  { sessionId := sid, missing := computeMissing {} }

/-- Modelled from the spec: the states a session can reach, one pipeline pass
per inbound message. -/
inductive PipelineReachable (registry : List Capability) :
    ConversationState → Prop
  | init (sid : String) : PipelineReachable registry (initialState sid)
  | step (msg : String) (st : ConversationState) :
      PipelineReachable registry st →
      PipelineReachable registry (pipelinePass registry msg st).2

/-- Modelled from the spec: the telephony facade
(`startCall(plan, business) -> callIdentifier`); `startedCalls` counts the
external call placements actually performed. -/
structure TelephonyFacade where
  startedCalls : Nat := 0
deriving Repr, DecidableEq

/-- Modelled from the spec: placing one outbound call through the facade. -/
def startCall (fac : TelephonyFacade) (sid : String) :
    String × TelephonyFacade :=
  ("call-" ++ sid ++ "-" ++ toString fac.startedCalls,
   { fac with startedCalls := fac.startedCalls + 1 })

/-- Modelled from the spec: the call-placement capability's `execute` with
its idempotency guard (§4.4): skip and return the existing identifier when a
call for this plan is already in flight or completed, otherwise place the
call and record its identifier. -/
def callPlacementExecute (st : ConversationState) (fac : TelephonyFacade) :
    String × ConversationState × TelephonyFacade :=
  match st.callId with
  | some cid => (cid, st, fac)
  | none =>
    let r := startCall fac st.sessionId
    (r.1, { st with callId := some r.1 }, r.2)

/-- Modelled from the spec: the call-placement capability's applicability
(§4.4): plan complete, user explicitly requests a reservation, and a
business is selected. -/
def callCapability : Capability :=
  { name := "call",
    applies := fun st =>
      planComplete st.plan && st.requestedReservation && st.business.isSome,
    execute := fun st =>
      { updates := [("call_id", "call-" ++ st.sessionId)],
        results := [{ id := "call-" ++ st.sessionId, toolName := "call",
                      title := "Reservation call", content := "Call initiated",
                      createdAt := "" }],
        followUps := ["confirm_business"] } }

end AgentCore


namespace AgentCore

/-! ### Registry-order lemmas -/

/-- The resolution loop of `order`, as explicit recursion over the requested
actions with the accumulated picks. -/
def resolveGo (registered : List Capability) :
    List Capability → List String → List Capability
  | acc, [] => acc
  | acc, a :: rest =>
    match registered.find? (fun c => c.name == a) with
    | some c =>
      if acc.any (fun d => d.name == c.name) then resolveGo registered acc rest
      else resolveGo registered (acc ++ [c]) rest
    | none => resolveGo registered acc rest

theorem resolve_foldl_eq (registered : List Capability) :
    ∀ (req : List String) (acc : List Capability),
      req.foldl
        (fun acc a =>
          match registered.find? (fun c => c.name == a) with
          | some c =>
            if acc.any (fun d => d.name == c.name) then acc else acc ++ [c]
          | none => acc)
        acc = resolveGo registered acc req := by
  intro req
  induction req with
  | nil => intro acc; rfl
  | cons a rest ih =>
    intro acc
    rw [List.foldl_cons, resolveGo]
    rcases hfind : registered.find? (fun c => c.name == a) with _ | c <;>
      simp only [hfind]
    · exact ih acc
    · by_cases hdup : acc.any (fun d => d.name == c.name) <;>
        simp only [hdup, if_true, if_false, Bool.false_eq_true] <;>
        exact ih _

theorem resolveRequested_eq_go (requested : List String)
    (registered : List Capability) :
    resolveRequested requested registered = resolveGo registered [] requested :=
  resolve_foldl_eq registered requested []

theorem resolveGo_mem (registered : List Capability) :
    ∀ (req : List String) (acc : List Capability),
      ∀ c ∈ resolveGo registered acc req, c ∈ acc ∨ c ∈ registered := by
  intro req
  induction req with
  | nil => intro acc c hc; exact Or.inl hc
  | cons a rest ih =>
    intro acc c hc
    rw [resolveGo] at hc
    rcases hfind : registered.find? (fun d => d.name == a) with _ | c'
    · rw [hfind] at hc
      exact ih acc c hc
    · rw [hfind] at hc
      dsimp only at hc
      by_cases hdup : acc.any (fun d => d.name == c'.name)
      · rw [if_pos hdup] at hc
        exact ih acc c hc
      · rw [if_neg hdup] at hc
        rcases ih _ c hc with hacc | hreg
        · rcases List.mem_append.mp hacc with h | h
          · exact Or.inl h
          · rcases List.mem_singleton.mp h with rfl
            exact Or.inr (List.mem_of_find?_eq_some hfind)
        · exact Or.inr hreg

theorem resolveGo_name_mem (registered : List Capability) :
    ∀ (req : List String) (acc : List Capability),
      ∀ c ∈ resolveGo registered acc req, c ∈ acc ∨ c.name ∈ req := by
  intro req
  induction req with
  | nil => intro acc c hc; exact Or.inl hc
  | cons a rest ih =>
    intro acc c hc
    rw [resolveGo] at hc
    rcases hfind : registered.find? (fun d => d.name == a) with _ | c'
    · rw [hfind] at hc
      rcases ih acc c hc with h | h
      · exact Or.inl h
      · exact Or.inr (List.mem_cons_of_mem _ h)
    · rw [hfind] at hc
      dsimp only at hc
      by_cases hdup : acc.any (fun d => d.name == c'.name)
      · rw [if_pos hdup] at hc
        rcases ih acc c hc with h | h
        · exact Or.inl h
        · exact Or.inr (List.mem_cons_of_mem _ h)
      · rw [if_neg hdup] at hc
        rcases ih _ c hc with hacc | hname
        · rcases List.mem_append.mp hacc with h | h
          · exact Or.inl h
          · rcases List.mem_singleton.mp h with rfl
            have hpred := List.find?_some hfind
            rw [List.mem_cons]
            exact Or.inr (Or.inl (beq_iff_eq.mp hpred))
        · exact Or.inr (List.mem_cons_of_mem _ hname)

theorem resolveGo_nodup (registered : List Capability) :
    ∀ (req : List String) (acc : List Capability),
      (acc.map Capability.name).Nodup →
      ((resolveGo registered acc req).map Capability.name).Nodup := by
  intro req
  induction req with
  | nil => intro acc h; exact h
  | cons a rest ih =>
    intro acc hacc
    rw [resolveGo]
    rcases hfind : registered.find? (fun d => d.name == a) with _ | c'
    · rw [hfind]
      exact ih acc hacc
    · rw [hfind]
      dsimp only
      by_cases hdup : acc.any (fun d => d.name == c'.name)
      · rw [if_pos hdup]
        exact ih acc hacc
      · rw [if_neg hdup]
        refine ih _ ?_
        rw [List.map_append, List.map_singleton, List.nodup_append]
        refine ⟨hacc, List.nodup_singleton _, ?_⟩
        intro x hx hx'
        rcases List.mem_singleton.mp hx' with rfl
        rcases List.mem_map.mp hx with ⟨d, hd, hdn⟩
        have hdup' : acc.any (fun d => d.name == c'.name) = false := by
          simpa using hdup
        rw [List.any_eq_false] at hdup'
        exact absurd (by simpa using hdn) (by simpa using hdup' d hd)

theorem order_eq (requested : List String) (registered : List Capability) :
    order requested registered =
      resolveRequested requested registered ++
        registered.filter (fun c =>
          !(resolveRequested requested registered).any
            (fun d => d.name == c.name)) := rfl

theorem order_nodup (requested : List String) (registered : List Capability)
    (hreg : (registered.map Capability.name).Nodup) :
    ((order requested registered).map Capability.name).Nodup := by
  rw [order_eq, List.map_append, List.nodup_append]
  refine ⟨?_, ?_, ?_⟩
  · rw [resolveRequested_eq_go]
    exact resolveGo_nodup registered requested [] (by simp)
  · exact ((List.filter_sublist registered).map Capability.name).nodup hreg
  · intro x hx hx'
    rcases List.mem_map.mp hx with ⟨d, hd, hdn⟩
    rcases List.mem_map.mp hx' with ⟨c, hc, hcn⟩
    rcases List.mem_filter.mp hc with ⟨_, hpred⟩
    rw [Bool.not_eq_true'] at hpred
    rw [List.any_eq_false] at hpred
    have := hpred d hd
    rw [hdn, ← hcn] at this
    simp at this

theorem mem_order_of_mem_registered (requested : List String)
    (registered : List Capability)
    (hreg : (registered.map Capability.name).Nodup) :
    ∀ c ∈ registered, c ∈ order requested registered := by
  intro c hc
  rw [order_eq, List.mem_append]
  by_cases hany :
      (resolveRequested requested registered).any
        (fun d => d.name == c.name) = true
  · rcases List.any_eq_true.mp hany with ⟨d, hd, hdc⟩
    have hd_reg : d ∈ registered := by
      rw [resolveRequested_eq_go] at hd
      rcases resolveGo_mem registered requested [] d hd with h | h
      · cases h
      · exact h
    have : d = c :=
      List.inj_on_of_nodup_map hreg hd_reg hc (beq_iff_eq.mp hdc)
    exact Or.inl (this ▸ hd)
  · refine Or.inr (List.mem_filter.mpr ⟨hc, ?_⟩)
    rw [Bool.not_eq_true']
    exact (Bool.not_eq_true _).mp hany

theorem mem_registered_of_mem_order (requested : List String)
    (registered : List Capability) :
    ∀ c ∈ order requested registered, c ∈ registered := by
  intro c hc
  rw [order_eq, List.mem_append] at hc
  rcases hc with hc | hc
  · rw [resolveRequested_eq_go] at hc
    rcases resolveGo_mem registered requested [] c hc with h | h
    · cases h
    · exact h
  · exact (List.mem_filter.mp hc).1

theorem resolveRequested_names (requested : List String)
    (registered : List Capability) :
    ∀ c ∈ resolveRequested requested registered, c.name ∈ requested := by
  intro c hc
  rw [resolveRequested_eq_go] at hc
  rcases resolveGo_name_mem registered requested [] c hc with h | h
  · cases h
  · exact h

theorem order_weather_planner (w p : Capability)
    (hw : w.name = "weather") (hp : p.name = "planner") :
    order ["weather", "planner"] [w, p] = [w, p] := by
  have hfw : List.find? (fun c => c.name == "weather") [w, p] = some w :=
    List.find?_cons_of_pos _ (by simp [hw])
  have hfp : List.find? (fun c => c.name == "planner") [w, p] = some p := by
    rw [List.find?_cons_of_neg _ (by simp [hw]),
      List.find?_cons_of_pos _ (by simp [hp])]
  have hres : resolveRequested ["weather", "planner"] [w, p] = [w, p] := by
    rw [resolveRequested_eq_go, resolveGo, hfw]
    dsimp only
    rw [if_neg (by simp)]
    rw [resolveGo, hfp]
    dsimp only
    rw [if_neg (by simp [hw, hp])]
    rfl
  rw [order_eq, hres]
  rw [List.filter_cons_of_neg (by simp), List.filter_cons_of_neg (by simp),
    List.filter_nil, List.append_nil]

/-- Claim C4: for every requested-action sequence and registered capability
list with distinct names, `order` yields each capability exactly once (no
duplicate even when matched by both the requested and the default order),
covers exactly the registered capabilities, puts the requested ones (and only
capabilities whose name was requested) in the front segment followed by the
remaining capabilities in registration order, and for the requested order
`["weather", "planner"]` the weather capability runs first, so the planner's
`execute` receives the state already carrying weather's merged updates. -/
theorem order_spec (requested : List String) (registered : List Capability)
    (hreg : (registered.map Capability.name).Nodup) :
    ((order requested registered).map Capability.name).Nodup ∧
    (∀ c ∈ registered, c ∈ order requested registered) ∧
    (∀ c ∈ order requested registered, c ∈ registered) ∧
    (∀ c ∈ resolveRequested requested registered, c.name ∈ requested) ∧
    (order requested registered =
      resolveRequested requested registered ++
        registered.filter (fun c =>
          !(resolveRequested requested registered).any
            (fun d => d.name == c.name))) ∧
    ∀ (w p : Capability) (st : ConversationState),
      w.name = "weather" → p.name = "planner" →
      order ["weather", "planner"] [w, p] = [w, p] ∧
      executePass (order ["weather", "planner"] [w, p]) st =
        runCapability (runCapability st w) p := by
  refine ⟨order_nodup requested registered hreg,
    mem_order_of_mem_registered requested registered hreg,
    mem_registered_of_mem_order requested registered,
    resolveRequested_names requested registered,
    order_eq requested registered, ?_⟩
  intro w p st hw hp
  refine ⟨order_weather_planner w p hw hp, ?_⟩
  rw [order_weather_planner w p hw hp]
  rfl

/-- A concrete weather capability used to evaluate the registry order. -/
def weatherCap : Capability :=
  { name := "weather",
    applies := fun _ => true,
    execute := fun _ => { updates := [("date", "2025-10-11")] } }

/-- A concrete planner capability used to evaluate the registry order. -/
def plannerCap : Capability :=
  { name := "planner",
    applies := fun _ => true,
    execute := fun _ => { updates := [("budget", "200000")] } }

/-- Witness for C4: with weather and planner registered, the requested order
`["weather", "planner"]` resolves to weather first, and the pass applies the
planner to the weather-updated state. -/
theorem order_spec_witness :
    order ["weather", "planner"] [weatherCap, plannerCap] =
      [weatherCap, plannerCap] ∧
    executePass (order ["weather", "planner"] [weatherCap, plannerCap])
        (initialState "s1") =
      runCapability (runCapability (initialState "s1") weatherCap) plannerCap :=
  (order_spec ["weather", "planner"] [weatherCap, plannerCap]
    (by decide)).2.2.2.2.2 weatherCap plannerCap (initialState "s1") rfl rfl

/-- Claim C5: in every reachable `ConversationState` the `missing` list
equals the fixed required-field set minus the fields populated in the current
snapshot, and every pipeline pass ends with `missing` recomputed from the
latest snapshot — never stale, never hand-appended. -/
theorem missing_recomputed (registry : List Capability) :
    (∀ st : ConversationState, PipelineReachable registry st →
      st.missing = computeMissing st.plan) ∧
    ∀ (msg : String) (st : ConversationState),
      (pipelinePass registry msg st).2.missing =
        computeMissing (pipelinePass registry msg st).2.plan := by
  constructor
  · intro st h
    induction h with
    | init sid => rfl
    | step msg st' _ _ => rfl
  · intro msg st
    rfl

/-- Witness for C5: the freshly created session state already satisfies the
invariant. -/
theorem missing_recomputed_witness :
    (initialState "session-1").missing =
      computeMissing (initialState "session-1").plan :=
  (missing_recomputed []).1 (initialState "session-1")
    (PipelineReachable.init "session-1")

/-- Claim C6: invoking the call-placement `execute` twice for the same
completed plan places at most one external call — the second invocation hits
the idempotency guard, returns the identifier the first invocation recorded,
and changes neither the state nor the telephony facade. -/
theorem callPlacement_idempotent (st : ConversationState)
    (fac : TelephonyFacade) (hcomplete : planComplete st.plan = true) :
    (callPlacementExecute (callPlacementExecute st fac).2.1
        (callPlacementExecute st fac).2.2).2.2.startedCalls ≤
      fac.startedCalls + 1 ∧
    (callPlacementExecute (callPlacementExecute st fac).2.1
        (callPlacementExecute st fac).2.2).1 =
      (callPlacementExecute st fac).1 ∧
    (callPlacementExecute (callPlacementExecute st fac).2.1
        (callPlacementExecute st fac).2.2).2 =
      (callPlacementExecute st fac).2 := by
  rcases hcid : st.callId with _ | cid
  · simp [callPlacementExecute, startCall, hcid]
  · simp [callPlacementExecute, hcid]

/-- A completed plan used to evaluate the call-placement guard. -/
def completedPlan : PlanSnapshot :=
  { date := some "2025-10-11", participants := some "2 adults 1 child",
    fishingType := some "boat", budget := some "200000",
    gear := some "provided", transportation := some "car" }

/-- A session that completed its plan and selected a business. -/
def readyState : ConversationState :=
  { sessionId := "s-ready", plan := completedPlan,
    missing := computeMissing completedPlan,
    business := some "Guryongpo Charters", requestedReservation := true }

/-- Witness for C6 at a concrete completed plan: the double invocation keeps
the call count at one and repeats the first call identifier. -/
theorem callPlacement_idempotent_witness :
    (callPlacementExecute (callPlacementExecute readyState ⟨0⟩).2.1
        (callPlacementExecute readyState ⟨0⟩).2.2).2.2.startedCalls ≤ 1 ∧
    (callPlacementExecute (callPlacementExecute readyState ⟨0⟩).2.1
        (callPlacementExecute readyState ⟨0⟩).2.2).1 =
      (callPlacementExecute readyState ⟨0⟩).1 :=
  ⟨(callPlacement_idempotent readyState ⟨0⟩ (by decide)).1,
   (callPlacement_idempotent readyState ⟨0⟩ (by decide)).2.1⟩

/-- A session whose plan is complete but with no business selected. -/
def noBusinessState : ConversationState :=
  { sessionId := "s-nobiz", plan := completedPlan,
    missing := computeMissing completedPlan }

/-- Claim C7, as frozen: the claim's two halves contradict each other on the
modelled pipeline.  At the concrete state with a complete plan, no selected
business and no call fired, the DONE rule (`callSuggested` iff plan complete
and no call fired) makes `callSuggested` **true**, while the claim's
"in particular" sentence demands it remain false. -/
theorem callSuggested_no_business_counterexample :
    noBusinessState.business = none ∧
    planComplete noBusinessState.plan = true ∧
    noBusinessState.callId = none ∧
    (pipelinePass [callCapability] "call them" noBusinessState).1.callSuggested
      = true := by
  refine ⟨rfl, by decide, rfl, by decide⟩

/-- Claim C7 (amended): in the response of a pipeline pass, `callSuggested`
is true iff the final plan is complete and no call-placement capability has
fired for this plan; with a complete plan but no selected business the
call-placement capability does not apply (so no call fires), and
`callSuggested` is then **true**, not false. -/
theorem pipelinePass_callSuggested (registry : List Capability) (msg : String)
    (st : ConversationState) :
    ((pipelinePass registry msg st).1.callSuggested = true ↔
      planComplete (pipelinePass registry msg st).2.plan = true ∧
        (pipelinePass registry msg st).2.callId = none) ∧
    ∀ s : ConversationState, s.business = none →
      callCapability.applies s = false := by
  constructor
  · show (planComplete (pipelinePass registry msg st).2.plan &&
        (pipelinePass registry msg st).2.callId.isNone) = true ↔ _
    rw [Bool.and_eq_true, Option.isNone_iff_eq_none]
  · intro s hs
    simp [callCapability, hs]

/-- Witness for C7: the call capability does not apply to a fresh session
without a selected business. -/
theorem pipelinePass_callSuggested_witness :
    callCapability.applies (initialState "s0") = false :=
  (pipelinePass_callSuggested [] "" (initialState "s0")).2
    (initialState "s0") rfl

end AgentCore
